import Mathlib

/-! Verification of the closest-tag version action (src/main.ts).

The TypeScript source is shallowly embedded: the hosting service is a
parameter giving each endpoint's response, JavaScript Maps are modelled by
their lookup function, and each loop of the source becomes a fuel-indexed
recursion where a result of `none` means the loop has not finished within
the given number of iterations. -/

namespace Ver

/-- The traversal node used by `findClosestTag` (the `GitCommit` interface of
src/main.ts lines 64-70): a sha plus the mutable `visited` flag. In the source
every queue entry is a freshly constructed `LazyGitCommit` object holding its
own flag, and each object is enqueued exactly once, so an entry's flag is
faithfully modelled as a field of the (value) entry: the write
`head.visited = true` (line 155) lands on the object that has just been
dequeued and is never referenced again. -/
structure GitCommit where
  sha : String
  visited : Bool
deriving DecidableEq

/-- The BFS frontier `todo` of `findClosestTag`: `none` is the level marker
`null` of the source. -/
abbrev Frontier := List (Option GitCommit)

/-- The while-loop of `findClosestTag` (src/main.ts lines 141-158), one unit
of fuel per iteration. `tags` is the tag index (a JS `Map` modelled by its
`get` function) and `parents` gives a commit's parent shas: `findClosestTag`
is written against the abstract `GitCommit` interface, so the parent relation
enters as a pure function here. Each dequeued `null` increments the depth and
re-enqueues `null` at the tail; a dequeued visited node is skipped; a node
whose sha is in the tag index returns that tag with the current depth;
otherwise the node's parents are enqueued at the tail as fresh unvisited
nodes. `none` means the loop has not returned within `fuel` iterations. -/
def findClosestTagFuel (tags : String → Option String) (parents : String → List String) :
    Nat → Frontier → Nat → Option (String × Int)
  | 0, _, _ => none
  | _ + 1, [], _ => some ("", -1)
  | fuel + 1, none :: rest, depth =>
      findClosestTagFuel tags parents fuel (rest ++ [none]) (depth + 1)
  | fuel + 1, some head :: rest, depth =>
      if head.visited then
        findClosestTagFuel tags parents fuel rest depth
      else
        match tags head.sha with
        | some t => some (t, (depth : Int))
        | none =>
            findClosestTagFuel tags parents fuel
              (rest ++ (parents head.sha).map (fun p => some ⟨p, false⟩)) depth

/-- `findClosestTag tags history`: the initial frontier is `[history, null]`
at depth 0 (src/main.ts lines 139-140). -/
def findClosestTagRun (tags : String → Option String) (parents : String → List String)
    (fuel : Nat) (start : String) : Option (String × Int) :=
  findClosestTagFuel tags parents fuel [some ⟨start, false⟩, none] 0

/-- `hasPathLen parents start n x`: there is a chain of `n` parent edges from
`start` to `x` in the ancestry graph (`x` is an ancestor of `start` at path
length `n`; `n = 0` gives `start` itself). -/
inductive hasPathLen (parents : String → List String) (start : String) : Nat → String → Prop
  | zero : hasPathLen parents start 0 start
  | succ {n : Nat} {x p : String} (hx : hasPathLen parents start n x)
      (hp : p ∈ parents x) : hasPathLen parents start (n + 1) p

/-- When no reachable commit is tagged, every iteration of the loop recurses:
the level marker is in the queue and is always re-enqueued, no entry ever
matches a tag, so the loop never returns for any amount of fuel. -/
lemma bfs_none_of_no_tag (tags : String → Option String) (parents : String → List String)
    (start : String)
    (htags : ∀ n x, hasPathLen parents start n x → tags x = none) :
    ∀ (fuel : Nat) (queue : Frontier) (depth : Nat),
      none ∈ queue →
      (∀ gc : GitCommit, some gc ∈ queue → ∃ n, hasPathLen parents start n gc.sha) →
      findClosestTagFuel tags parents fuel queue depth = none := by
  intro fuel
  induction fuel with
  | zero => intro queue depth _ _; rfl
  | succ fuel ih =>
    intro queue depth hmark hreach
    match queue with
    | [] => cases hmark
    | none :: rest =>
        simp only [findClosestTagFuel]
        refine ih (rest ++ [none]) (depth + 1) (by simp) ?_
        intro gc hgc
        rcases List.mem_append.mp hgc with h | h
        · exact hreach gc (List.mem_cons_of_mem _ h)
        · simp at h
    | some head :: rest =>
        obtain ⟨n, hn⟩ := hreach head (List.mem_cons_self _ _)
        have ht : tags head.sha = none := htags n head.sha hn
        have hrest : (none : Option GitCommit) ∈ rest := by
          rcases List.mem_cons.mp hmark with h | h
          · exact Option.noConfusion h
          · exact h
        by_cases hv : head.visited = true
        · simp only [findClosestTagFuel, hv, if_true]
          exact ih rest depth hrest (fun gc hgc => hreach gc (List.mem_cons_of_mem _ hgc))
        · simp only [findClosestTagFuel, hv, if_false, ht]
          refine ih (rest ++ (parents head.sha).map (fun p => some ⟨p, false⟩)) depth
            (List.mem_append.mpr (Or.inl hrest)) ?_
          intro gc hgc
          rcases List.mem_append.mp hgc with h | h
          · exact hreach gc (List.mem_cons_of_mem _ h)
          · obtain ⟨p, hp, hpe⟩ := List.mem_map.mp h
            obtain rfl : (⟨p, false⟩ : GitCommit) = gc := Option.some.inj hpe
            exact ⟨n + 1, hasPathLen.succ hn hp⟩

/-- Claim C1: the spec says that on a graph with no tagged reachable ancestor
`findClosestTag` terminates with the sentinel `("", -1)`. The code instead
loops forever: the level marker is re-enqueued on every dequeue, so the
frontier never empties and the sentinel return is unreachable. For every
graph with no tagged reachable commit and every fuel bound, the loop has not
returned. -/
theorem findClosestTag_no_tag_diverges (tags : String → Option String)
    (parents : String → List String) (start : String)
    (htags : ∀ n x, hasPathLen parents start n x → tags x = none) :
    ∀ fuel, findClosestTagRun tags parents fuel start = none := by
  intro fuel
  refine bfs_none_of_no_tag tags parents start htags fuel _ 0 (by simp) ?_
  intro gc hgc
  have h : some gc = some (⟨start, false⟩ : GitCommit) ∨ some gc = (none : Option GitCommit) := by
    simpa using hgc
  rcases h with h | h
  · obtain rfl : gc = (⟨start, false⟩ : GitCommit) := Option.some.inj h.symm |>.symm
    exact ⟨0, hasPathLen.zero⟩
  · exact Option.noConfusion h

/-- An empty tag index over a single root commit. -/
def noTags : String → Option String := fun _ => none

/-- A graph in which every commit has no parents. -/
def noParents : String → List String := fun _ => []

/-- Witness for C1's divergence theorem at a concrete input: a lone untagged
commit, fuel 37. -/
theorem findClosestTag_no_tag_diverges_witness :
    (∀ n x, hasPathLen noParents "C0" n x → noTags x = none) ∧
    findClosestTagRun noTags noParents 37 "C0" = none :=
  ⟨fun _ _ _ => rfl,
   findClosestTag_no_tag_diverges noTags noParents "C0" (fun _ _ _ => rfl) 37⟩

/-- The frontier entries made from a list of shas: each is a fresh unvisited
node, exactly as `LazyGitCommit` objects are constructed. -/
def queueOf (l : List String) : Frontier := l.map (fun s => some ⟨s, false⟩)

@[simp] lemma queueOf_nil : queueOf [] = [] := rfl

@[simp] lemma queueOf_cons (s : String) (l : List String) :
    queueOf (s :: l) = some ⟨s, false⟩ :: queueOf l := rfl

@[simp] lemma queueOf_append (a b : List String) :
    queueOf (a ++ b) = queueOf a ++ queueOf b := List.map_append _ a b

/-- The BFS levels of the ancestry graph: level 0 is the start commit, level
`n + 1` lists the parents of every entry of level `n` (with multiplicity —
the code enqueues every parent occurrence, its revisit guard notwithstanding). -/
def frontierLevel (parents : String → List String) (start : String) : Nat → List String
  | 0 => [start]
  | n + 1 => (frontierLevel parents start n).flatMap parents

/-- The tag of the first entry of `l` that the tag index knows, if any: the
tag that a single BFS level would return. -/
def firstTag (tags : String → Option String) : List String → Option String
  | [] => none
  | s :: r =>
      match tags s with
      | some t => some t
      | none => firstTag tags r

/-- Iterations the loop spends before reaching level `i`: each level costs one
iteration per entry plus one for the level marker. -/
def fuelTo (parents : String → List String) (start : String) : Nat → Nat
  | 0 => 0
  | i + 1 => fuelTo parents start i + ((frontierLevel parents start i).length + 1)

lemma firstTag_eq_none (tags : String → Option String) (l : List String)
    (h : ∀ s ∈ l, tags s = none) : firstTag tags l = none := by
  induction l with
  | nil => rfl
  | cons s r ih =>
      have hs : tags s = none := h s (List.mem_cons_self _ _)
      simp only [firstTag, hs]
      exact ih (fun x hx => h x (List.mem_cons_of_mem _ hx))

lemma firstTag_isSome (tags : String → Option String) (l : List String) (s : String)
    (hs : s ∈ l) (ht : (tags s).isSome) : (firstTag tags l).isSome := by
  induction l with
  | nil => cases hs
  | cons a r ih =>
      rcases List.mem_cons.mp hs with rfl | h
      · obtain ⟨t, htt⟩ := Option.isSome_iff_exists.mp ht
        simp [firstTag, htt]
      · cases ha : tags a with
        | some t => simp [firstTag, ha]
        | none => simpa [firstTag, ha] using ih h

lemma firstTag_mem (tags : String → Option String) (l : List String) (t : String)
    (h : firstTag tags l = some t) : ∃ s ∈ l, tags s = some t := by
  induction l with
  | nil => simp [firstTag] at h
  | cons a r ih =>
      cases ha : tags a with
      | some t' =>
          rw [firstTag, ha] at h
          exact ⟨a, List.mem_cons_self _ _, ha.trans h⟩
      | none =>
          rw [firstTag, ha] at h
          obtain ⟨s, hsl, hst⟩ := ih h
          exact ⟨s, List.mem_cons_of_mem _ hsl, hst⟩

lemma mem_frontierLevel (parents : String → List String) (start : String) :
    ∀ (i : Nat) (x : String),
      x ∈ frontierLevel parents start i ↔ hasPathLen parents start i x := by
  intro i
  induction i with
  | zero =>
      intro x
      constructor
      · intro hx
        obtain rfl : x = start := by simpa [frontierLevel] using hx
        exact hasPathLen.zero
      · intro hx
        cases hx with
        | zero => simp [frontierLevel]
  | succ i ih =>
      intro x
      constructor
      · intro hx
        obtain ⟨y, hy, hxy⟩ := List.mem_flatMap.mp (by simpa [frontierLevel] using hx)
        exact hasPathLen.succ ((ih y).mp hy) hxy
      · intro hx
        cases hx with
        | succ hy hp =>
            exact by
              simp only [frontierLevel]
              exact List.mem_flatMap.mpr ⟨_, (ih _).mpr hy, hp⟩

/-- Draining one BFS level when an entry of the level carries a tag: the loop
returns that level's first tag at the current depth. `ls` is the rest of the
current level, `acc` the next-level entries already enqueued behind the
marker. -/
lemma bfs_level_found (tags : String → Option String) (parents : String → List String)
    (ls : List String) (t : String) (hfound : firstTag tags ls = some t) :
    ∀ (acc : List String) (d fuel : Nat),
      findClosestTagFuel tags parents (fuel + ls.length + 1)
        (queueOf ls ++ [none] ++ queueOf acc) d = some (t, (d : Int)) := by
  induction ls with
  | nil => simp [firstTag] at hfound
  | cons s r ih =>
      intro acc d fuel
      have e : fuel + (s :: r).length + 1 = (fuel + r.length + 1) + 1 := by
        simp [List.length_cons]; omega
      rw [e]
      simp only [queueOf_cons, List.cons_append, findClosestTagFuel]
      cases hs : tags s with
      | some t' =>
          rw [firstTag, hs] at hfound
          obtain rfl : t' = t := Option.some.inj hfound
          simp [hs]
      | none =>
          rw [firstTag, hs] at hfound
          have := ih hfound (acc ++ parents s) d fuel
          simp only [hs]
          simp only [queueOf_append, List.append_assoc] at this ⊢
          simpa [queueOf] using this

/-- Draining one untagged BFS level: the loop passes the marker and continues
at the next depth with the accumulated next level. -/
lemma bfs_level_none (tags : String → Option String) (parents : String → List String)
    (ls : List String) (hnone : firstTag tags ls = none) :
    ∀ (acc : List String) (d fuel : Nat),
      findClosestTagFuel tags parents (fuel + ls.length + 1)
        (queueOf ls ++ [none] ++ queueOf acc) d =
      findClosestTagFuel tags parents fuel
        (queueOf (acc ++ ls.flatMap parents) ++ [none]) (d + 1) := by
  induction ls with
  | nil =>
      intro acc d fuel
      have e : fuel + ([] : List String).length + 1 = fuel + 1 := by simp
      rw [e]
      simp only [queueOf_nil, List.nil_append, List.singleton_append, findClosestTagFuel]
      simp
  | cons s r ih =>
      intro acc d fuel
      have hs : tags s = none := by
        rw [firstTag] at hnone
        cases hs : tags s with
        | some t' => rw [hs] at hnone; cases hnone
        | none => rfl
      have hr : firstTag tags r = none := by rwa [firstTag, hs] at hnone
      have e : fuel + (s :: r).length + 1 = (fuel + r.length + 1) + 1 := by
        simp [List.length_cons]; omega
      rw [e]
      simp only [queueOf_cons, List.cons_append, findClosestTagFuel]
      simp only [hs]
      have := ih hr (acc ++ parents s) d fuel
      simp only [queueOf, List.map_append, List.append_assoc, List.append_eq,
        List.flatMap_cons] at this ⊢
      exact this

/-- Running the loop from the initial frontier up to level `i` when no level
below `i` contains a tagged entry. -/
lemma bfs_run_to_level (tags : String → Option String) (parents : String → List String)
    (start : String) :
    ∀ (i : Nat), (∀ j, j < i → firstTag tags (frontierLevel parents start j) = none) →
      ∀ f : Nat,
        findClosestTagFuel tags parents (f + fuelTo parents start i)
          (queueOf [start] ++ [none]) 0 =
        findClosestTagFuel tags parents f
          (queueOf (frontierLevel parents start i) ++ [none]) i := by
  intro i
  induction i with
  | zero =>
      intro _ f
      simp [fuelTo, frontierLevel]
  | succ i ih =>
      intro hno f
      have e : f + fuelTo parents start (i + 1)
          = (f + ((frontierLevel parents start i).length + 1)) + fuelTo parents start i := by
        simp [fuelTo]; omega
      rw [e, ih (fun j hj => hno j (Nat.lt_succ_of_lt hj))]
      have step := bfs_level_none tags parents (frontierLevel parents start i)
        (hno i (Nat.lt_succ_self i)) [] i f
      simp only [queueOf_nil, List.append_nil, List.nil_append] at step
      have e2 : f + ((frontierLevel parents start i).length + 1)
          = f + (frontierLevel parents start i).length + 1 := by omega
      rw [e2, step]
      simp [frontierLevel]

/-- Claim C2: whenever some tagged ancestor is reachable, `findClosestTag`
terminates (for sufficient fuel) and returns a tag held by an ancestor at the
minimum graph distance over all tagged ancestors, together with exactly that
distance. -/
theorem findClosestTag_min_distance (tags : String → Option String)
    (parents : String → List String) (start : String)
    (h : ∃ n x, hasPathLen parents start n x ∧ (tags x).isSome) :
    ∃ fuel t,
      findClosestTagRun tags parents fuel start =
        some (t, ((sInf {n | ∃ x, hasPathLen parents start n x ∧ (tags x).isSome} : ℕ) : ℤ)) ∧
      ∃ x, hasPathLen parents start
          (sInf {n | ∃ x, hasPathLen parents start n x ∧ (tags x).isSome}) x ∧
        tags x = some t := by
  set S : Set ℕ := {n | ∃ x, hasPathLen parents start n x ∧ (tags x).isSome} with hS
  have hne : S.Nonempty := by
    obtain ⟨n, x, hx, ht⟩ := h
    exact ⟨n, x, hx, ht⟩
  have hmem : sInf S ∈ S := Nat.sInf_mem hne
  obtain ⟨x0, hx0, ht0⟩ := hmem
  -- below the minimum every level is untagged
  have hno : ∀ j, j < sInf S → firstTag tags (frontierLevel parents start j) = none := by
    intro j hj
    refine firstTag_eq_none tags _ ?_
    intro s hs
    by_contra hsome
    have hsome' : (tags s).isSome := Option.ne_none_iff_isSome.mp hsome
    have : j ∈ S := ⟨s, (mem_frontierLevel parents start j s).mp hs, hsome'⟩
    exact absurd (Nat.sInf_le this) (Nat.not_le.mpr hj)
  -- the minimum level holds a tagged entry
  have hx0' : x0 ∈ frontierLevel parents start (sInf S) :=
    (mem_frontierLevel parents start _ x0).mpr hx0
  have hsome : (firstTag tags (frontierLevel parents start (sInf S))).isSome :=
    firstTag_isSome tags _ x0 hx0' ht0
  obtain ⟨t, htag⟩ := Option.isSome_iff_exists.mp hsome
  refine ⟨(frontierLevel parents start (sInf S)).length + 1 + fuelTo parents start (sInf S),
    t, ?_, ?_⟩
  · have hrun := bfs_run_to_level tags parents start (sInf S) hno
      ((frontierLevel parents start (sInf S)).length + 1)
    have hfound := bfs_level_found tags parents (frontierLevel parents start (sInf S)) t htag
      [] (sInf S) 0
    simp only [queueOf_nil, List.append_nil, List.nil_append] at hfound
    have e : (0 : ℕ) + (frontierLevel parents start (sInf S)).length + 1
        = (frontierLevel parents start (sInf S)).length + 1 := by omega
    rw [e] at hfound
    unfold findClosestTagRun
    have einit : queueOf [start] ++ [none] = [some ⟨start, false⟩, none] := rfl
    rw [← einit, hrun, hfound]
  · obtain ⟨s, hsl, hst⟩ := firstTag_mem tags _ t htag
    exact ⟨s, (mem_frontierLevel parents start _ s).mp hsl, hst⟩

/-- The linear history C2 → C1 → C0 of the spec's "two commits ahead"
scenario. -/
def chainParents : String → List String := fun s =>
  if s = "C2" then ["C1"] else if s = "C1" then ["C0"] else []

/-- Tag index of the scenario: C0 carries "v1.0.0". -/
def chainTags : String → Option String := fun s =>
  if s = "C0" then some "v1.0.0" else none

/-- Witness for C2 at the concrete two-commits-ahead scenario. -/
theorem findClosestTag_min_distance_witness :
    (∃ n x, hasPathLen chainParents "C2" n x ∧ (chainTags x).isSome) ∧
    (∃ fuel t,
      findClosestTagRun chainTags chainParents fuel "C2" =
        some (t, ((sInf {n | ∃ x, hasPathLen chainParents "C2" n x ∧ (chainTags x).isSome} : ℕ) : ℤ)) ∧
      ∃ x, hasPathLen chainParents "C2"
          (sInf {n | ∃ x, hasPathLen chainParents "C2" n x ∧ (chainTags x).isSome}) x ∧
        chainTags x = some t) := by
  have h1 : hasPathLen chainParents "C2" 1 "C1" :=
    hasPathLen.succ hasPathLen.zero (by decide)
  have hpath : hasPathLen chainParents "C2" 2 "C0" :=
    hasPathLen.succ h1 (by decide)
  have hex : ∃ n x, hasPathLen chainParents "C2" n x ∧ (chainTags x).isSome :=
    ⟨2, "C0", hpath, by decide⟩
  exact ⟨hex, findClosestTag_min_distance chainTags chainParents "C2" hex⟩

/-- The same loop as `findClosestTagFuel`, additionally recording, in order,
the sha of every node that gets expanded (the branch that sets
`head.visited = true` and enqueues the parents, src/main.ts lines 155-156).
Only the accumulator is new; every step is otherwise identical. -/
def findClosestTagVisits (tags : String → Option String) (parents : String → List String) :
    Nat → Frontier → Nat → List String → Option ((String × Int) × List String)
  | 0, _, _, _ => none
  | _ + 1, [], _, acc => some (("", -1), acc)
  | fuel + 1, none :: rest, depth, acc =>
      findClosestTagVisits tags parents fuel (rest ++ [none]) (depth + 1) acc
  | fuel + 1, some head :: rest, depth, acc =>
      if head.visited then
        findClosestTagVisits tags parents fuel rest depth acc
      else
        match tags head.sha with
        | some t => some ((t, (depth : Int)), acc)
        | none =>
            findClosestTagVisits tags parents fuel
              (rest ++ (parents head.sha).map (fun p => some ⟨p, false⟩)) depth
              (acc ++ [head.sha])

/-- The instrumentation is conservative: dropping the recorded expansions
gives back the plain loop. -/
lemma findClosestTagVisits_fst (tags : String → Option String)
    (parents : String → List String) :
    ∀ (fuel : Nat) (queue : Frontier) (depth : Nat) (acc : List String),
      (findClosestTagVisits tags parents fuel queue depth acc).map Prod.fst =
        findClosestTagFuel tags parents fuel queue depth := by
  intro fuel
  induction fuel with
  | zero => intro queue depth acc; rfl
  | succ fuel ih =>
    intro queue depth acc
    match queue with
    | [] => rfl
    | none :: rest => simp only [findClosestTagVisits, findClosestTagFuel, ih]
    | some head :: rest =>
        by_cases hv : head.visited = true
        · simp only [findClosestTagVisits, findClosestTagFuel, hv, if_true, ih]
        · cases ht : tags head.sha with
          | some t => simp [findClosestTagVisits, findClosestTagFuel, hv, ht]
          | none => simp [findClosestTagVisits, findClosestTagFuel, hv, ht, ih]

/-- The diamond history of claim C3 with the tag one step beyond the shared
ancestor: C3 merges C1 and C2, both children of C0, whose parent C4 is
tagged. -/
def diamondParents : String → List String := fun s =>
  if s = "C3" then ["C1", "C2"]
  else if s = "C1" then ["C0"]
  else if s = "C2" then ["C0"]
  else if s = "C0" then ["C4"]
  else []

/-- Tag index for the diamond: only the deep ancestor C4 is tagged. -/
def diamondTags : String → Option String := fun s =>
  if s = "C4" then some "v1.0.0" else none

/-- Claim C3 (code bug): the claim says no commit identifier is expanded more
than once. In the code every queue entry is a fresh `LazyGitCommit` whose
`visited` flag starts `false`, so the revisit guard never fires: on the
diamond, the shared ancestor C0 — reached once through C1 and once through
C2 — is expanded twice, as the recorded expansion list
`[C3, C1, C2, C0, C0]` shows (the returned distance 3 is still correct). -/
theorem findClosestTag_expands_twice :
    findClosestTagVisits diamondTags diamondParents 20 [some ⟨"C3", false⟩, none] 0 [] =
      some (("v1.0.0", 3), ["C3", "C1", "C2", "C0", "C0"]) := by
  decide

/-- The version string computed by `run` (src/main.ts lines 20-28): negative
distance gives the raw start identifier, zero gives the tag verbatim,
positive gives tag-distance-identifier. -/
def versionOf (tag : String) (distance : Int) (sha : String) : String :=
  if distance < 0 then sha
  else if distance = 0 then tag
  else tag ++ "-" ++ toString distance ++ "-" ++ sha

/-- Any non-sentinel result of the loop is a tag actually present in the tag
index, returned with the (never negative) depth counter. -/
lemma bfs_some_sound (tags : String → Option String) (parents : String → List String) :
    ∀ (fuel : Nat) (queue : Frontier) (depth : Nat) (t : String) (d : Int),
      findClosestTagFuel tags parents fuel queue depth = some (t, d) →
      (t = "" ∧ d = -1) ∨ (0 ≤ d ∧ ∃ x, tags x = some t) := by
  intro fuel
  induction fuel with
  | zero => intro queue depth t d h; cases h
  | succ fuel ih =>
    intro queue depth t d h
    match queue with
    | [] =>
        refine Or.inl ?_
        have h' : ("", (-1 : Int)) = (t, d) := by
          simpa [findClosestTagFuel] using h
        exact ⟨(Prod.mk.inj h').1.symm, (Prod.mk.inj h').2.symm⟩
    | none :: rest =>
        simp only [findClosestTagFuel] at h
        exact ih _ _ _ _ h
    | some head :: rest =>
        by_cases hv : head.visited = true
        · simp only [findClosestTagFuel, hv, if_true] at h
          exact ih _ _ _ _ h
        · cases ht : tags head.sha with
          | some t' =>
              have h' : (t', (depth : Int)) = (t, d) := by
                simpa [findClosestTagFuel, hv, ht] using h
              refine Or.inr ⟨?_, head.sha, ?_⟩
              · rw [← (Prod.mk.inj h').2]; exact Int.ofNat_nonneg depth
              · rw [ht, (Prod.mk.inj h').1]
          | none =>
              simp only [findClosestTagFuel, hv, if_false, ht] at h
              exact ih _ _ _ _ h

/-- Claim C10: a commit mapped to the empty string by the tag index is a tag
match. If the start commit itself is mapped to `""` the loop returns
`("", 0)` within one iteration, and the formatted version for tag `""` at
distance 0 is the empty string; moreover every non-sentinel result of the
loop carries a non-negative distance and a tag taken from the index (so a
`("", d)` success differs from the `("", -1)` sentinel only in the distance
field). -/
theorem findClosestTag_empty_tag_match (tags : String → Option String)
    (parents : String → List String) (start : String) :
    (tags start = some "" →
      findClosestTagRun tags parents 1 start = some ("", 0)) ∧
    versionOf "" 0 start = "" ∧
    (∀ (fuel : Nat) (t : String) (d : Int),
      findClosestTagRun tags parents fuel start = some (t, d) →
      (t = "" ∧ d = -1) ∨ (0 ≤ d ∧ ∃ x, tags x = some t)) := by
  refine ⟨?_, ?_, ?_⟩
  · intro h
    simp [findClosestTagRun, findClosestTagFuel, h]
  · simp [versionOf]
  · intro fuel t d h
    exact bfs_some_sound tags parents fuel _ 0 t d h

/-- Tag index mapping the start commit to the empty string. -/
def emptyStrTags : String → Option String := fun s =>
  if s = "C0" then some "" else none

/-- Witness for C10 at a concrete input: start commit tagged with `""`. -/
theorem findClosestTag_empty_tag_match_witness :
    emptyStrTags "C0" = some "" ∧
    findClosestTagRun emptyStrTags noParents 1 "C0" = some ("", 0) ∧
    versionOf "" 0 "C0" = "" :=
  ⟨rfl,
   (findClosestTag_empty_tag_match emptyStrTags noParents "C0").1 rfl,
   (findClosestTag_empty_tag_match emptyStrTags noParents "C0").2.1⟩

/-- A tag record as the tag-listing endpoint returns it: the tag name and the
sha of the tagged commit (src/main.ts lines 56-58 read `tag.commit.sha` and
`tag.name`). -/
structure TagRec where
  name : String
  commitSha : String
deriving DecidableEq

/-- A raw commit as the history endpoint returns it: its sha and its parent
shas in order (src/main.ts lines 85-86 read `rawCommit.sha` and
`rawCommit.parents.map(it => it.sha)`). -/
structure RawCommit where
  sha : String
  parents : List String
deriving DecidableEq

/-- A thrown JavaScript value: an `Error` instance carrying a message, or any
other thrown value (JavaScript permits throwing non-`Error` values). -/
inductive JsValue where
  | errorObj (message : String)
  | other
deriving DecidableEq

/-- Outcome of an awaited operation: a value, or a thrown JS value. -/
inductive JsResult (α : Type) where
  | ok (a : α)
  | thrown (e : JsValue)
deriving DecidableEq

/-- The hosting service boundary: each endpoint maps its request parameters
to its response, or to a thrown value for a transport/API failure. -/
structure Service where
  listTags : Nat → JsResult (List TagRec)
  listCommits : String → Nat → JsResult (List RawCommit)

/-- The fixed page size of both paginated endpoints (src/main.ts line 37). -/
def pageSize : Nat := 100

/-- The slice of a backing list that a paged endpoint returns for a zero-based
page number: a finite service response is the slicing of a finite listing. -/
def pageOf {α : Type} (l : List α) (page : Nat) : List α :=
  (l.drop (page * pageSize)).take pageSize

/-- A well-behaved service backed by a finite tag list and, for each history
root, a finite commit listing: every endpoint answers with the requested page
slice and never throws. -/
def pureService (allTags : List TagRec) (historyOf : String → List RawCommit) : Service where
  listTags := fun page => .ok (pageOf allTags page)
  listCommits := fun sha page => .ok (pageOf (historyOf sha) page)

/-- The tag index: a JS `Map<string, string>` modelled by its `get` function. -/
abbrev TagMap := String → Option String

/-- `Map.set`: later writes win on lookup. -/
def mapSet (m : TagMap) (k v : String) : TagMap :=
  fun s => if s = k then some v else m s

/-- The inner for-loop of `getTags` (src/main.ts lines 56-58): insert every
tag of the fetched page, keyed by its commit sha, in page order. -/
def insertTags (m : TagMap) (page : List TagRec) : TagMap :=
  page.foldl (fun acc t => mapSet acc t.commitSha t.name) m

/-- The do-while loop of `getTags` (src/main.ts lines 45-59): fetch a page of
tags, insert them all, advance the page counter, and loop again exactly when
the page was full. One unit of fuel per iteration; `none` means the loop has
not finished within `fuel` iterations. -/
def getTagsLoop (svc : Service) : Nat → Nat → TagMap → Option (JsResult TagMap)
  | 0, _, _ => none
  | fuel + 1, page, result =>
      match svc.listTags page with
      | .thrown e => some (.thrown e)
      | .ok tagsPage =>
          let result' := insertTags result tagsPage
          if tagsPage.length = pageSize then getTagsLoop svc fuel (page + 1) result'
          else some (.ok result')

/-- `getTags`: the loop starts at page 0 with an empty map. -/
def getTags (svc : Service) (fuel : Nat) : Option (JsResult TagMap) :=
  getTagsLoop svc fuel 0 (fun _ => none)

/-- The commit cache of `getHistory`: a JS `Map<string, Commit>` modelled by
its `get` function. -/
abbrev Cache := String → Option RawCommit

/-- The inner for-loop of the provider (src/main.ts lines 114-116): insert
every commit of the fetched page, keyed by its own sha. -/
def insertCommits (m : Cache) (page : List RawCommit) : Cache :=
  page.foldl (fun acc c => fun s => if s = c.sha then some c else acc s) m

/-- The state the provider closure of `getHistory` (src/main.ts lines
103-104) captures: the commit cache and the page counter. Both are shared by
every invocation of the provider within one `getHistory` call — in
particular the page counter is never reset between resolutions. -/
structure ProviderState where
  commits : Cache
  page : Nat

/-- The while-loop of the provider (src/main.ts lines 106-120): while the
requested hash is not cached, fetch the page `st.page` of the history rooted
at `hash`, advance the page counter, insert all returned commits, and break
if the page was short. (The source increments `page` before inserting; the
resulting state is the same.) One unit of fuel per iteration. -/
def providerLoop (svc : Service) (hash : String) :
    Nat → ProviderState → Option (JsResult Unit × ProviderState)
  | 0, _ => none
  | fuel + 1, st =>
      if (st.commits hash).isSome then some (.ok (), st)
      else
        match svc.listCommits hash st.page with
        | .thrown e => some (.thrown e, st)
        | .ok rawCommits =>
            let st' : ProviderState := ⟨insertCommits st.commits rawCommits, st.page + 1⟩
            if rawCommits.length < pageSize then some (.ok (), st')
            else providerLoop svc hash fuel st'

/-- The message of the fatal cache-miss error (src/main.ts lines 123-125).
The source appends a JSON dump of the pagination state to this text; the dump
is elided here, as no claim depends on its contents. -/
def cacheMissMsg (hash : String) : String :=
  "commit " ++ hash ++ " was undefined, must not happen, all commits should be loaded."

/-- The provider function of `getHistory` (src/main.ts lines 105-128): run
the pagination loop, then look the hash up in the cache, throwing the fatal
cache-miss error when it is still absent. -/
def resolve (svc : Service) (hash : String) (fuel : Nat) (st : ProviderState) :
    Option (JsResult RawCommit × ProviderState) :=
  match providerLoop svc hash fuel st with
  | none => none
  | some (.thrown e, st') => some (.thrown e, st')
  | some (.ok _, st') =>
      match st'.commits hash with
      | some c => some (.ok c, st')
      | none => some (.thrown (.errorObj (cacheMissMsg hash)), st')

/-- The sha of a successfully resolved commit, if the resolution succeeded. -/
def resolvedSha : Option (JsResult RawCommit × ProviderState) → Option String
  | some (.ok c, _) => some c.sha
  | _ => none

/-- The message of the `Error` a resolution threw, if it threw one. -/
def resolveThrewMsg : Option (JsResult RawCommit × ProviderState) → Option String
  | some (.thrown (.errorObj m), _) => some m
  | _ => none

/-- The provider state left behind by a resolution (the given default if the
resolution did not finish). -/
def afterResolve : Option (JsResult RawCommit × ProviderState) → ProviderState → ProviderState
  | some (_, st), _ => st
  | none, st0 => st0

/-- Sha of the `i`-th commit of a 101-commit linear history. -/
def chainSha (i : Nat) : String := "c" ++ toString i

/-- The `i`-th commit of the linear history: each of c0 … c99 has the next
commit as its single parent; c100 is the root. -/
def chainCommit (i : Nat) : RawCommit :=
  ⟨chainSha i, if i < 100 then [chainSha (i + 1)] else []⟩

/-- Index of a chain sha in the 101-commit history. -/
def chainIndex (s : String) : Option Nat :=
  (List.range 101).find? (fun i => chainSha i = s)

/-- The history listing rooted at each commit of the chain: the commit itself
first, then its ancestors in order (most-recent-first, as the history
endpoint lists them). -/
def longChainHistory (s : String) : List RawCommit :=
  match chainIndex s with
  | some i => (List.range (101 - i)).map (fun j => chainCommit (i + j))
  | none => []

/-- A service with no tags whose history endpoint serves the 101-commit
chain. -/
def longChainSvc : Service := pureService [] longChainHistory

/-- The provider state after `getHistory` resolves the start commit c0: the
first 100 commits are cached and the shared page counter is 1. -/
def chainStateAfterStart : ProviderState :=
  afterResolve (resolve longChainSvc (chainSha 0) 5 ⟨fun _ => none, 0⟩) ⟨fun _ => none, 0⟩

/-- Claim C4 (code bug): resolving c0 against its 101-commit history caches
only the first page (c0 … c99) and leaves the shared page counter at 1, so
the subsequent resolution of c100 — which the history endpoint does surface,
on page 0 of the listing rooted at c100 itself — starts fetching at page 1,
never sees c100, and throws the fatal cache-miss error that the code's own
message says "must not happen". -/
theorem resolve_fails_on_surfaced_commit :
    resolvedSha (resolve longChainSvc (chainSha 0) 5 ⟨fun _ => none, 0⟩) = some (chainSha 0) ∧
    resolveThrewMsg (resolve longChainSvc (chainSha 100) 5 chainStateAfterStart) =
      some (cacheMissMsg (chainSha 100)) ∧
    chainSha 100 ∈ (longChainHistory (chainSha 100)).map RawCommit.sha := by
  decide

lemma getTagsLoop_terminates (allTags : List TagRec) (historyOf : String → List RawCommit) :
    ∀ (f : Nat), ∀ (page : Nat) (m : TagMap),
      allTags.length < (page + f + 1) * pageSize →
      (getTagsLoop (pureService allTags historyOf) (f + 1) page m).isSome := by
  intro f
  induction f with
  | zero =>
      intro page m hlt
      have hlen : ((allTags.drop (page * pageSize)).take pageSize).length ≠ pageSize := by
        simp only [List.length_take, List.length_drop, pageSize] at *
        omega
      simp only [getTagsLoop, pureService, pageOf]
      rw [if_neg hlen]
      rfl
  | succ f ih =>
      intro page m hlt
      simp only [getTagsLoop, pureService, pageOf]
      by_cases hfull : ((allTags.drop (page * pageSize)).take pageSize).length = pageSize
      · rw [if_pos hfull]
        refine ih (page + 1) _ ?_
        have e : page + 1 + f + 1 = page + (f + 1) + 1 := by omega
        rw [e]
        exact hlt
      · rw [if_neg hfull]
        rfl

/-- One unfolding step of the provider loop at positive fuel. -/
lemma providerLoop_succ (svc : Service) (hash : String) (fuel : Nat) (st : ProviderState) :
    providerLoop svc hash (fuel + 1) st =
      if (st.commits hash).isSome then some (.ok (), st)
      else
        match svc.listCommits hash st.page with
        | .thrown e => some (.thrown e, st)
        | .ok rawCommits =>
            let st' : ProviderState := ⟨insertCommits st.commits rawCommits, st.page + 1⟩
            if rawCommits.length < pageSize then some (.ok (), st')
            else providerLoop svc hash fuel st' := rfl

lemma providerLoop_terminates (allTags : List TagRec) (historyOf : String → List RawCommit)
    (hash : String) :
    ∀ (f : Nat), ∀ (st : ProviderState),
      (historyOf hash).length < (st.page + f + 1) * pageSize →
      (providerLoop (pureService allTags historyOf) hash (f + 1) st).isSome := by
  intro f
  induction f with
  | zero =>
      intro st hlt
      rw [providerLoop_succ]
      simp only [pureService, pageOf]
      by_cases hc : (st.commits hash).isSome = true
      · rw [if_pos hc]; rfl
      · rw [if_neg hc]
        have hshort : (((historyOf hash).drop (st.page * pageSize)).take pageSize).length
            < pageSize := by
          simp only [List.length_take, List.length_drop, pageSize] at *
          omega
        simp only [if_pos hshort]
        rfl
  | succ f ih =>
      intro st hlt
      rw [providerLoop_succ]
      simp only [pureService, pageOf]
      by_cases hc : (st.commits hash).isSome = true
      · rw [if_pos hc]; rfl
      · rw [if_neg hc]
        by_cases hshort : (((historyOf hash).drop (st.page * pageSize)).take pageSize).length
            < pageSize
        · simp only [if_pos hshort]; rfl
        · simp only [if_neg hshort]
          refine ih _ ?_
          show (historyOf hash).length < (st.page + 1 + f + 1) * pageSize
          have e : st.page + 1 + f + 1 = st.page + (f + 1) + 1 := by omega
          rw [e]
          exact hlt

/-- Claim C5: both pagination loops terminate on every finite service
response — including tag lists and histories whose length is an exact
multiple of the page size — within one page fetch more than the number of
full pages: fuel `length / 100 + 1` always suffices (for the provider loop,
from any cache and any current page counter). -/
theorem pagination_always_terminates :
    (∀ (allTags : List TagRec) (historyOf : String → List RawCommit),
      (getTags (pureService allTags historyOf) (allTags.length / pageSize + 1)).isSome) ∧
    (∀ (allTags : List TagRec) (historyOf : String → List RawCommit) (hash : String)
        (st : ProviderState),
      (providerLoop (pureService allTags historyOf) hash
          ((historyOf hash).length / pageSize + 1) st).isSome) := by
  constructor
  · intro allTags historyOf
    refine getTagsLoop_terminates allTags historyOf (allTags.length / pageSize) 0 _ ?_
    simp only [pageSize]
    omega
  · intro allTags historyOf hash st
    refine providerLoop_terminates allTags historyOf hash ((historyOf hash).length / pageSize)
      st ?_
    simp only [pageSize]
    omega

/-- A `LazyGitCommit` as the Resolver sees it (src/main.ts lines 74-97): the
commit's sha, its parent shas, and the visited flag (freshly constructed
objects start unvisited). -/
structure LazyNode where
  sha : String
  parentSha : List String
  visited : Bool
deriving DecidableEq

/-- `parents()` of a node (src/main.ts lines 89-96): resolve each parent sha
through the shared provider. `Promise.all` assembles the results by index;
here the resolutions run in index order, the canonical schedule (see
`scheduleRun` below for arbitrary completion schedules). The shared provider
state is threaded through; a thrown resolution rejects the whole expansion
with the state it left behind. -/
def resolveList (svc : Service) (fuel : Nat) :
    List String → ProviderState → Option (JsResult (List RawCommit) × ProviderState)
  | [], st => some (.ok [], st)
  | h :: rest, st =>
      match resolve svc h fuel st with
      | none => none
      | some (.thrown e, st') => some (.thrown e, st')
      | some (.ok c, st') =>
          match resolveList svc fuel rest st' with
          | none => none
          | some (.thrown e, st'') => some (.thrown e, st'')
          | some (.ok cs, st'') => some (.ok (c :: cs), st'')

/-- The `findClosestTag` loop running over lazy nodes backed by the provider:
the same state machine as `findClosestTagFuel`, except that parent expansion
goes through `resolveList` against the shared provider state, and a thrown
resolution aborts the traversal. -/
def bfsLazy (svc : Service) (tags : TagMap) :
    Nat → List (Option LazyNode) → Nat → ProviderState → Option (JsResult (String × Int))
  | 0, _, _, _ => none
  | _ + 1, [], _, _ => some (.ok ("", -1))
  | fuel + 1, none :: rest, depth, st =>
      bfsLazy svc tags fuel (rest ++ [none]) (depth + 1) st
  | fuel + 1, some head :: rest, depth, st =>
      if head.visited then bfsLazy svc tags fuel rest depth st
      else
        match tags head.sha with
        | some t => some (.ok (t, (depth : Int)))
        | none =>
            match resolveList svc fuel head.parentSha st with
            | none => none
            | some (.thrown e, _) => some (.thrown e)
            | some (.ok cs, st') =>
                bfsLazy svc tags fuel
                  (rest ++ cs.map (fun c => some ⟨c.sha, c.parents, false⟩)) depth st'

/-- The fallible body of `run` (src/main.ts lines 17-19): build the tag
index, resolve the start commit into the root lazy node (`getHistory` starts
from a fresh empty cache and page counter 0), then run the traversal. -/
def runPipeline (svc : Service) (startSha : String) (fuel : Nat) :
    Option (JsResult (String × Int)) :=
  match getTags svc fuel with
  | none => none
  | some (.thrown e) => some (.thrown e)
  | some (.ok tags) =>
      match resolve svc startSha fuel ⟨fun _ => none, 0⟩ with
      | none => none
      | some (.thrown e, _) => some (.thrown e)
      | some (.ok c, st) =>
          bfsLazy svc tags fuel [some ⟨c.sha, c.parents, false⟩, none] 0 st

/-- The externally visible effects of one `run` invocation: the failure
status (the message passed to `core.setFailed`), the `version` output
(`core.setOutput`), and the text appended to the environment file. -/
structure RunEffects where
  failed : Option String
  output : Option String
  envAppend : Option String
deriving DecidableEq

/-- `run` (src/main.ts lines 13-35): on pipeline success, compute the version
string and emit it as the output and as the `VERSION=` append to the
environment file; on a thrown value, the catch block reports a failure
status only when the value is an `Error` instance
(`if (error instanceof Error) core.setFailed(error.message)`) and emits
nothing either way. -/
def runModel (svc : Service) (startSha : String) (fuel : Nat) : Option RunEffects :=
  match runPipeline svc startSha fuel with
  | none => none
  | some (.thrown (.errorObj msg)) => some ⟨some msg, none, none⟩
  | some (.thrown .other) => some ⟨none, none, none⟩
  | some (.ok (tag, distance)) =>
      let version := versionOf tag distance startSha
      some ⟨none, some version, some ("VERSION=" ++ version)⟩

/-- A service whose tag-listing endpoint rejects with a non-`Error` thrown
value. -/
def nonErrorSvc : Service where
  listTags := fun _ => .thrown .other
  listCommits := fun _ _ => .ok []

/-- Counterexample to claim C6 as stated: the tag listing raises a fatal
(non-`Error`) thrown value, yet `run` reports no failure status at all — the
catch block's `instanceof Error` guard silently swallows it. -/
theorem run_swallows_non_error :
    runPipeline nonErrorSvc "C0" 1 = some (.thrown .other) ∧
    runModel nonErrorSvc "C0" 1 = some ⟨none, none, none⟩ :=
  ⟨rfl, rfl⟩

/-- Claim C6 (amended): whenever the pipeline throws, `run` emits no version
output and no environment-file append; the failure status carries the thrown
error's message when the thrown value is an `Error` instance, and is absent
(the error is silently swallowed) for any other thrown value. -/
theorem run_reports_error_instances (svc : Service) (startSha : String) (fuel : Nat) :
    (∀ msg, runPipeline svc startSha fuel = some (.thrown (.errorObj msg)) →
      runModel svc startSha fuel = some ⟨some msg, none, none⟩) ∧
    (runPipeline svc startSha fuel = some (.thrown .other) →
      runModel svc startSha fuel = some ⟨none, none, none⟩) := by
  constructor
  · intro msg h
    simp [runModel, h]
  · intro h
    simp [runModel, h]

/-- A service whose tag-listing endpoint throws an `Error` instance. -/
def errorSvc : Service where
  listTags := fun _ => .thrown (.errorObj "boom")
  listCommits := fun _ _ => .ok []

/-- Witness for C6's amended theorem: an `Error` thrown by the tag listing is
reported with its message and nothing is emitted. -/
theorem run_reports_error_instances_witness :
    runPipeline errorSvc "C0" 1 = some (.thrown (.errorObj "boom")) ∧
    runModel errorSvc "C0" 1 = some ⟨some "boom", none, none⟩ :=
  ⟨rfl, (run_reports_error_instances errorSvc "C0" 1).1 "boom" rfl⟩

/-- History listings for the spec's two-commits-ahead scenario
C0 → C1 → C2 (C0 oldest). -/
def scenarioHistory : String → List RawCommit := fun s =>
  if s = "C2" then [⟨"C2", ["C1"]⟩, ⟨"C1", ["C0"]⟩, ⟨"C0", []⟩]
  else if s = "C1" then [⟨"C1", ["C0"]⟩, ⟨"C0", []⟩]
  else if s = "C0" then [⟨"C0", []⟩]
  else []

/-- The two-commits-ahead scenario service: C0 tagged v1.0.0, start C2. -/
def scenarioSvc : Service := pureService [⟨"v1.0.0", "C0"⟩] scenarioHistory

/-- Claim C7: when the pipeline succeeds with `(tag, distance)`, `run` emits
exactly `versionOf tag distance startSha` both as the `version` output and
as the `VERSION=` append to the environment file; the version is the raw
identifier for negative distance, the tag verbatim at distance zero, and
`tag-distance-identifier` for positive distance; and on the spec's
two-commits-ahead scenario the emitted version is `v1.0.0-2-C2`. -/
theorem run_version_format (svc : Service) (startSha : String) (fuel : Nat)
    (t : String) (d : Int) :
    (runPipeline svc startSha fuel = some (.ok (t, d)) →
      runModel svc startSha fuel =
        some ⟨none, some (versionOf t d startSha),
          some ("VERSION=" ++ versionOf t d startSha)⟩) ∧
    (d < 0 → versionOf t d startSha = startSha) ∧
    (d = 0 → versionOf t d startSha = t) ∧
    (0 < d → versionOf t d startSha = t ++ "-" ++ toString d ++ "-" ++ startSha) ∧
    runModel scenarioSvc "C2" 9 =
      some ⟨none, some "v1.0.0-2-C2", some "VERSION=v1.0.0-2-C2"⟩ := by
  refine ⟨?_, ?_, ?_, ?_, ?_⟩
  · intro h
    simp [runModel, h]
  · intro h
    simp [versionOf, h]
  · intro h
    subst h
    norm_num [versionOf]
  · intro h
    rw [versionOf, if_neg (by omega), if_neg (by omega)]
  · decide

/-- Witness for C7 at the two-commits-ahead scenario. -/
theorem run_version_format_witness :
    runPipeline scenarioSvc "C2" 9 = some (.ok ("v1.0.0", 2)) ∧
    runModel scenarioSvc "C2" 9 =
      some ⟨none, some "v1.0.0-2-C2", some "VERSION=v1.0.0-2-C2"⟩ := by
  refine ⟨by decide, ?_⟩
  have h := (run_version_format scenarioSvc "C2" 9 "v1.0.0" 2).1 (by decide)
  have e : versionOf "v1.0.0" 2 "C2" = "v1.0.0-2-C2" := by decide
  rw [e] at h
  exact h

lemma getTagsLoop_mono (svc : Service) :
    ∀ (f : Nat), ∀ (f' : Nat), f ≤ f' → ∀ (page : Nat) (m : TagMap) (r : JsResult TagMap),
      getTagsLoop svc f page m = some r → getTagsLoop svc f' page m = some r := by
  intro f
  induction f with
  | zero => intro f' _ page m r h; cases h
  | succ f ih =>
      intro f' hle page m r h
      obtain ⟨f'', rfl⟩ : ∃ k, f' = k + 1 := ⟨f' - 1, by omega⟩
      simp only [getTagsLoop] at h ⊢
      cases htags : svc.listTags page with
      | thrown e => rw [htags] at h; exact h
      | ok tagsPage =>
          rw [htags] at h
          dsimp only at h ⊢
          by_cases hfull : tagsPage.length = pageSize
          · rw [if_pos hfull] at h ⊢
            exact ih f'' (by omega) _ _ _ h
          · rw [if_neg hfull] at h ⊢
            exact h

lemma providerLoop_mono (svc : Service) (hash : String) :
    ∀ (f : Nat), ∀ (f' : Nat), f ≤ f' →
      ∀ (st : ProviderState) (r : JsResult Unit × ProviderState),
      providerLoop svc hash f st = some r → providerLoop svc hash f' st = some r := by
  intro f
  induction f with
  | zero => intro f' _ st r h; cases h
  | succ f ih =>
      intro f' hle st r h
      obtain ⟨f'', rfl⟩ : ∃ k, f' = k + 1 := ⟨f' - 1, by omega⟩
      rw [providerLoop_succ] at h ⊢
      by_cases hc : (st.commits hash).isSome = true
      · rw [if_pos hc] at h ⊢; exact h
      · rw [if_neg hc] at h ⊢
        cases hsvc : svc.listCommits hash st.page with
        | thrown e => rw [hsvc] at h; exact h
        | ok raw =>
            rw [hsvc] at h
            dsimp only at h ⊢
            by_cases hshort : raw.length < pageSize
            · rw [if_pos hshort] at h ⊢; exact h
            · rw [if_neg hshort] at h ⊢
              exact ih f'' (by omega) _ _ h

lemma resolve_mono (svc : Service) (hash : String) (f f' : Nat) (hle : f ≤ f')
    (st : ProviderState) (r : JsResult RawCommit × ProviderState)
    (h : resolve svc hash f st = some r) : resolve svc hash f' st = some r := by
  unfold resolve at h ⊢
  cases hp : providerLoop svc hash f st with
  | none => rw [hp] at h; cases h
  | some pr =>
      rw [hp] at h
      rw [providerLoop_mono svc hash f f' hle st pr hp]
      exact h

lemma resolveList_mono (svc : Service) (f f' : Nat) (hle : f ≤ f') :
    ∀ (ps : List String) (st : ProviderState)
      (r : JsResult (List RawCommit) × ProviderState),
      resolveList svc f ps st = some r → resolveList svc f' ps st = some r := by
  intro ps
  induction ps with
  | nil => intro st r h; exact h
  | cons p rest ih =>
      intro st r h
      simp only [resolveList] at h ⊢
      cases hr : resolve svc p f st with
      | none => rw [hr] at h; cases h
      | some pr =>
          rw [hr] at h
          rw [resolve_mono svc p f f' hle st pr hr]
          obtain ⟨res, st'⟩ := pr
          cases res with
          | thrown e => exact h
          | ok c =>
              dsimp only at h ⊢
              cases hrl : resolveList svc f rest st' with
              | none => rw [hrl] at h; cases h
              | some rr =>
                  rw [hrl] at h
                  rw [ih st' rr hrl]
                  exact h

lemma bfsLazy_mono (svc : Service) (tags : TagMap) :
    ∀ (f : Nat), ∀ (f' : Nat), f ≤ f' →
      ∀ (q : List (Option LazyNode)) (d : Nat) (st : ProviderState)
        (r : JsResult (String × Int)),
      bfsLazy svc tags f q d st = some r → bfsLazy svc tags f' q d st = some r := by
  intro f
  induction f with
  | zero => intro f' _ q d st r h; cases h
  | succ f ih =>
      intro f' hle q d st r h
      obtain ⟨f'', rfl⟩ : ∃ k, f' = k + 1 := ⟨f' - 1, by omega⟩
      have hle' : f ≤ f'' := by omega
      match q with
      | [] => exact h
      | none :: rest =>
          simp only [bfsLazy] at h ⊢
          exact ih f'' hle' _ _ _ _ h
      | some head :: rest =>
          simp only [bfsLazy] at h ⊢
          by_cases hv : head.visited = true
          · rw [if_pos hv] at h ⊢
            exact ih f'' hle' _ _ _ _ h
          · rw [if_neg hv] at h ⊢
            cases ht : tags head.sha with
            | some t => rw [ht] at h; exact h
            | none =>
                rw [ht] at h
                dsimp only at h ⊢
                cases hrl : resolveList svc f head.parentSha st with
                | none => rw [hrl] at h; cases h
                | some pr =>
                    rw [hrl] at h
                    rw [resolveList_mono svc f f'' hle' head.parentSha st pr hrl]
                    obtain ⟨res, st'⟩ := pr
                    cases res with
                    | thrown e => exact h
                    | ok cs =>
                        dsimp only at h ⊢
                        exact ih f'' hle' _ _ _ _ h

lemma runPipeline_mono (svc : Service) (startSha : String) (f f' : Nat) (hle : f ≤ f')
    (r : JsResult (String × Int)) (h : runPipeline svc startSha f = some r) :
    runPipeline svc startSha f' = some r := by
  unfold runPipeline at h ⊢
  cases hg : getTags svc f with
  | none => rw [hg] at h; cases h
  | some gr =>
      rw [hg] at h
      have hg0 : getTagsLoop svc f 0 (fun _ => none) = some gr := hg
      have hg' : getTags svc f' = some gr := getTagsLoop_mono svc f f' hle 0 _ gr hg0
      rw [hg']
      cases gr with
      | thrown e => exact h
      | ok tags =>
          dsimp only at h ⊢
          cases hr : resolve svc startSha f ⟨fun _ => none, 0⟩ with
          | none => rw [hr] at h; cases h
          | some pr =>
              rw [hr] at h
              rw [resolve_mono svc startSha f f' hle _ pr hr]
              obtain ⟨res, st⟩ := pr
              cases res with
              | thrown e => exact h
              | ok c =>
                  dsimp only at h ⊢
                  exact bfsLazy_mono svc tags f f' hle _ _ _ _ h

lemma runModel_mono (svc : Service) (startSha : String) (f f' : Nat) (hle : f ≤ f')
    (r : RunEffects) (h : runModel svc startSha f = some r) :
    runModel svc startSha f' = some r := by
  unfold runModel at h ⊢
  cases hp : runPipeline svc startSha f with
  | none => rw [hp] at h; cases h
  | some pr =>
      rw [hp] at h
      rw [runPipeline_mono svc startSha f f' hle pr hp]
      exact h

/-- Claim C9: determinism / idempotence. Every invocation of the pipeline
builds its tag map, provider cache, page counter and traversal nodes afresh
(`getTags` starts at page 0 with an empty map, `getHistory` with an empty
cache and page 0, the traversal with fresh unvisited nodes), so any two
completed invocations against the same service state return identical
effects — whatever (sufficient) iteration bounds the two runs used. -/
theorem run_deterministic (svc : Service) (startSha : String) (f1 f2 : Nat)
    (r1 r2 : RunEffects) (h1 : runModel svc startSha f1 = some r1)
    (h2 : runModel svc startSha f2 = some r2) : r1 = r2 := by
  rcases le_total f1 f2 with hle | hle
  · have h1' := runModel_mono svc startSha f1 f2 hle r1 h1
    rw [h1'] at h2
    exact Option.some.inj h2
  · have h2' := runModel_mono svc startSha f2 f1 hle r2 h2
    rw [h2'] at h1
    exact (Option.some.inj h1).symm

/-- Witness for C9: two fresh invocations against the scenario service, with
different fuel bounds, yield the same effects. -/
theorem run_deterministic_witness :
    runModel scenarioSvc "C2" 9 =
      some ⟨none, some "v1.0.0-2-C2", some "VERSION=v1.0.0-2-C2"⟩ ∧
    runModel scenarioSvc "C2" 12 =
      some ⟨none, some "v1.0.0-2-C2", some "VERSION=v1.0.0-2-C2"⟩ ∧
    (⟨none, some "v1.0.0-2-C2", some "VERSION=v1.0.0-2-C2"⟩ : RunEffects) =
      ⟨none, some "v1.0.0-2-C2", some "VERSION=v1.0.0-2-C2"⟩ :=
  ⟨by decide, by decide,
   run_deterministic scenarioSvc "C2" 9 12 _ _ (by decide) (by decide)⟩

/-- Invariant of the commit cache: every entry is stored under its own sha
(the provider inserts each commit as `commits.set(commit.sha, commit)`,
src/main.ts line 115). -/
def cacheKeyed (c : Cache) : Prop := ∀ k v, c k = some v → v.sha = k

lemma insertCommits_keyed (c : Cache) (page : List RawCommit) (h : cacheKeyed c) :
    cacheKeyed (insertCommits c page) := by
  induction page generalizing c with
  | nil => exact h
  | cons a rest ih =>
      refine ih (fun s => if s = a.sha then some a else c s) ?_
      intro k v hk
      dsimp only at hk
      by_cases hka : k = a.sha
      · rw [if_pos hka] at hk
        rw [← Option.some.inj hk]
        exact hka.symm
      · rw [if_neg hka] at hk
        exact h k v hk

lemma providerLoop_keyed (svc : Service) (hash : String) :
    ∀ (f : Nat) (st : ProviderState) (r : JsResult Unit × ProviderState),
      cacheKeyed st.commits → providerLoop svc hash f st = some r →
      cacheKeyed r.2.commits := by
  intro f
  induction f with
  | zero => intro st r _ h; cases h
  | succ f ih =>
      intro st r hk h
      rw [providerLoop_succ] at h
      by_cases hc : (st.commits hash).isSome = true
      · rw [if_pos hc] at h
        rw [← Option.some.inj h]
        exact hk
      · rw [if_neg hc] at h
        cases hsvc : svc.listCommits hash st.page with
        | thrown e =>
            rw [hsvc] at h
            rw [← Option.some.inj h]
            exact hk
        | ok raw =>
            rw [hsvc] at h
            dsimp only at h
            by_cases hshort : raw.length < pageSize
            · rw [if_pos hshort] at h
              rw [← Option.some.inj h]
              exact insertCommits_keyed st.commits raw hk
            · rw [if_neg hshort] at h
              exact ih _ r (insertCommits_keyed st.commits raw hk) h

lemma resolve_keyed (svc : Service) (hash : String) (f : Nat) (st : ProviderState)
    (r : JsResult RawCommit) (st' : ProviderState) (hk : cacheKeyed st.commits)
    (h : resolve svc hash f st = some (r, st')) : cacheKeyed st'.commits := by
  unfold resolve at h
  cases hp : providerLoop svc hash f st with
  | none => rw [hp] at h; cases h
  | some pr =>
      rw [hp] at h
      obtain ⟨res, st''⟩ := pr
      have hk'' : cacheKeyed st''.commits := providerLoop_keyed svc hash f st _ hk hp
      cases res with
      | thrown e =>
          have e2 : st'' = st' := congrArg Prod.snd (Option.some.inj h)
          rw [← e2]
          exact hk''
      | ok u =>
          dsimp only at h
          cases hc : st''.commits hash with
          | none =>
              rw [hc] at h
              have e2 : st'' = st' := congrArg Prod.snd (Option.some.inj h)
              rw [← e2]
              exact hk''
          | some c0 =>
              rw [hc] at h
              have e2 : st'' = st' := congrArg Prod.snd (Option.some.inj h)
              rw [← e2]
              exact hk''

/-- A successful resolution returns the commit stored under the requested
hash, whose sha is that very hash. -/
lemma resolve_ok_sha (svc : Service) (hash : String) (f : Nat) (st : ProviderState)
    (c : RawCommit) (st' : ProviderState) (hk : cacheKeyed st.commits)
    (h : resolve svc hash f st = some (.ok c, st')) : c.sha = hash := by
  unfold resolve at h
  cases hp : providerLoop svc hash f st with
  | none => rw [hp] at h; cases h
  | some pr =>
      rw [hp] at h
      obtain ⟨res, st''⟩ := pr
      have hk'' : cacheKeyed st''.commits := providerLoop_keyed svc hash f st _ hk hp
      cases res with
      | thrown e => simp at h
      | ok u =>
          dsimp only at h
          cases hc : st''.commits hash with
          | none => rw [hc] at h; simp at h
          | some c0 =>
              rw [hc] at h
              have e1 : JsResult.ok c0 = JsResult.ok c := congrArg Prod.fst (Option.some.inj h)
              have e0 : c0 = c := by injection e1
              rw [← e0]
              exact hk'' hash c0 hc

/-- The parent resolutions of one `parents()` call (src/main.ts lines 89-96)
under an arbitrary completion schedule: `sched` lists the order in which the
per-parent provider calls run to completion against the shared provider
state (entry `i` resolves parent sha `ps.getD i ""`); each call's outcome is
recorded keyed by its index. -/
def scheduleRun (svc : Service) (fuel : Nat) (ps : List String) :
    List Nat → ProviderState → Option (List (Nat × JsResult RawCommit) × ProviderState)
  | [], st => some ([], st)
  | i :: rest, st =>
      match resolve svc (ps.getD i "") fuel st with
      | none => none
      | some (r, st') =>
          match scheduleRun svc fuel ps rest st' with
          | none => none
          | some (out, st'') => some ((i, r) :: out, st'')

/-- Index-ordered reassembly: the value at position `i` is the recorded
outcome for index `i`; a rejection or missing index rejects the whole
expansion. -/
def collectOk (out : List (Nat × JsResult RawCommit)) : List Nat → Option (List RawCommit)
  | [] => some []
  | i :: rest =>
      match out.find? (fun p => p.1 = i) with
      | some (_, .ok c) => (collectOk out rest).map (fun l => c :: l)
      | _ => none

/-- `Promise.all` assembles the awaited results by index, not by completion
order. -/
def promiseAll (ps : List String) (out : List (Nat × JsResult RawCommit)) :
    Option (List RawCommit) :=
  collectOk out (List.range ps.length)

lemma scheduleRun_ok_sha (svc : Service) (fuel : Nat) (ps : List String) :
    ∀ (sched : List Nat) (st : ProviderState) (out : List (Nat × JsResult RawCommit))
      (st' : ProviderState), cacheKeyed st.commits →
      scheduleRun svc fuel ps sched st = some (out, st') →
      ∀ i c, (i, JsResult.ok c) ∈ out → c.sha = ps.getD i "" := by
  intro sched
  induction sched with
  | nil =>
      intro st out st' _ h i c hmem
      have e : ([] : List (Nat × JsResult RawCommit)) = out :=
        congrArg Prod.fst (Option.some.inj h)
      rw [← e] at hmem
      cases hmem
  | cons j rest ih =>
      intro st out st' hk h i c hmem
      simp only [scheduleRun] at h
      cases hr : resolve svc (ps.getD j "") fuel st with
      | none => rw [hr] at h; cases h
      | some pr =>
          rw [hr] at h
          obtain ⟨r, st1⟩ := pr
          dsimp only at h
          cases hs : scheduleRun svc fuel ps rest st1 with
          | none => rw [hs] at h; cases h
          | some pr2 =>
              rw [hs] at h
              obtain ⟨out1, st2⟩ := pr2
              dsimp only at h
              have eout : (j, r) :: out1 = out := congrArg Prod.fst (Option.some.inj h)
              rw [← eout] at hmem
              rcases List.mem_cons.mp hmem with hhead | htail
              · have e1 : i = j := congrArg Prod.fst hhead
                have e2 : JsResult.ok c = r := congrArg Prod.snd hhead
                subst e1
                rw [← e2] at hr
                exact resolve_ok_sha svc (ps.getD i "") fuel st c st1 hk hr
              · have hk1 : cacheKeyed st1.commits :=
                  resolve_keyed svc (ps.getD j "") fuel st r st1 hk hr
                exact ih st1 out1 st2 hk1 hs i c htail

lemma collectOk_sha (ps : List String) (out : List (Nat × JsResult RawCommit))
    (hout : ∀ i c, (i, JsResult.ok c) ∈ out → c.sha = ps.getD i "") :
    ∀ (idxs : List Nat) (l : List RawCommit), collectOk out idxs = some l →
      l.map RawCommit.sha = idxs.map (fun i => ps.getD i "") := by
  intro idxs
  induction idxs with
  | nil =>
      intro l h
      have e : ([] : List RawCommit) = l := Option.some.inj h
      rw [← e]
      rfl
  | cons i rest ih =>
      intro l h
      simp only [collectOk] at h
      cases hf : out.find? (fun p => p.1 = i) with
      | none => rw [hf] at h; cases h
      | some p =>
          rw [hf] at h
          obtain ⟨i', r⟩ := p
          have hi : i' = i := by
            have := List.find?_some hf
            simpa using this
          cases r with
          | thrown e => cases h
          | ok c =>
              dsimp only at h
              cases hc : collectOk out rest with
              | none => rw [hc] at h; cases h
              | some l0 =>
                  rw [hc] at h
                  have e0 : c :: l0 = l := Option.some.inj (by simpa using h)
                  rw [← e0, List.map_cons, List.map_cons]
                  congr 1
                  · refine hout i c ?_
                    have hmem := List.mem_of_find?_eq_some hf
                    rw [hi] at hmem
                    exact hmem
                  · exact ih l0 hc

lemma map_getD_range (ps : List String) :
    (List.range ps.length).map (fun i => ps.getD i "") = ps := by
  apply List.ext_getElem
  · simp
  · intro i h1 h2
    simp only [List.getElem_map, List.getElem_range]
    rw [List.getD_eq_getElem?_getD, List.getElem?_eq_getElem h2]
    rfl

/-- Claim C8: within one node's parent expansion, whatever order the
individual parent resolutions complete in (any schedule over the shared
provider state), the `Promise.all` assembly is in index order: when every
resolution succeeds, the expanded node list carries exactly the node's
parent shas in the order the hosting service returned them. -/
theorem parents_enqueued_in_order (svc : Service) (fuel : Nat) (ps : List String)
    (sched : List Nat) (st : ProviderState) (out : List (Nat × JsResult RawCommit))
    (st' : ProviderState) (l : List RawCommit)
    (hk : cacheKeyed st.commits)
    (hrun : scheduleRun svc fuel ps sched st = some (out, st'))
    (hall : promiseAll ps out = some l) :
    l.map RawCommit.sha = ps := by
  have hout := scheduleRun_ok_sha svc fuel ps sched st out st' hk hrun
  have hcoll := collectOk_sha ps out hout (List.range ps.length) l hall
  rw [hcoll, map_getD_range]

/-- A cache already holding the two parents P1 and P2. -/
def twoParentCache : Cache := fun s =>
  if s = "P1" then some ⟨"P1", []⟩ else if s = "P2" then some ⟨"P2", []⟩ else none

/-- A service with no tags and empty histories. -/
def emptySvc : Service := pureService [] (fun _ => [])

/-- Witness for C8: parents `[P1, P2]` resolved under the out-of-order
schedule `[1, 0]` are still assembled in index order `[P1, P2]`. -/
theorem parents_enqueued_in_order_witness :
    cacheKeyed twoParentCache ∧
    scheduleRun emptySvc 1 ["P1", "P2"] [1, 0] ⟨twoParentCache, 0⟩ =
      some ([(1, .ok ⟨"P2", []⟩), (0, .ok ⟨"P1", []⟩)], ⟨twoParentCache, 0⟩) ∧
    promiseAll ["P1", "P2"] [(1, .ok ⟨"P2", []⟩), (0, .ok ⟨"P1", []⟩)] =
      some [⟨"P1", []⟩, ⟨"P2", []⟩] ∧
    ([⟨"P1", []⟩, ⟨"P2", []⟩] : List RawCommit).map RawCommit.sha = ["P1", "P2"] := by
  have hk : cacheKeyed twoParentCache := by
    intro k v hv
    by_cases h1 : k = "P1"
    · subst h1
      have e : some (⟨"P1", []⟩ : RawCommit) = some v := by
        simpa [twoParentCache] using hv
      rw [← Option.some.inj e]
    · by_cases h2 : k = "P2"
      · subst h2
        have e : some (⟨"P2", []⟩ : RawCommit) = some v := by
          simpa [twoParentCache] using hv
        rw [← Option.some.inj e]
      · simp [twoParentCache, h1, h2] at hv
  refine ⟨hk, rfl, by decide, ?_⟩
  exact parents_enqueued_in_order emptySvc 1 ["P1", "P2"] [1, 0] ⟨twoParentCache, 0⟩
    _ _ _ hk rfl (by decide)

end Ver
